import Mathlib

/-!
Verification of the `xnscu/apikeys` gateway core against its specification.

Part 1 embeds the credential pool scheduler of `src/db-manager.mjs`
(class `ApiKeyPoolManager`): `getNextApiKey`, `selectRoundRobinFromAvailable`,
`validateRoundRobinIndex`, `selectLeastUsed`, `selectRandom`,
`disableKeyOnRateLimit`.

Modelling conventions for the scheduler:
- The `api_keys` table is a `List ApiKey`; the list order stands for the
  `ORDER BY id` order of the SQL queries, so `SELECT ... ORDER BY id` is a
  `List.filter` over the list.
- SQL timestamps are `Int` seconds; `datetime(last_used_at, '+N hours') <=
  datetime('now')` becomes `t + N * 3600 <= now`.
- `pool_config` rows are strings parsed with `parseInt` in the source; they
  are modelled as typed optional fields (`none` = row absent, in which case
  the source falls back to a default via `|| 'default'`).
- `Math.random()`-based choices take an extra `rand : Nat` argument, used as
  `rand % length` for the uniform pick.
-/

structure ApiKey where
  id : Nat
  is_active : Bool
  last_used_at : Option Int
  error_count : Nat
  total_requests : Nat
  updated_at : Int
  deriving Repr, DecidableEq

instance : Inhabited ApiKey :=
  ⟨{ id := 0
     is_active := false
     last_used_at := none
     error_count := 0
     total_requests := 0
     updated_at := 0 }⟩

structure PoolConfig where
  cooldownHours : Option Nat
  maxErrors : Option Nat
  rrIndex : Option Nat
  rrCount : Option Nat
  deriving Repr, DecidableEq

structure PoolState where
  keys : List ApiKey
  cfg : PoolConfig
  deriving Repr, DecidableEq

inductive Strategy where
  | round_robin
  | least_used
  | random
  deriving Repr, DecidableEq

inductive SchedErr where
  | poolExhausted
  | allKeysExhausted
  | invalidKey
  deriving Repr, DecidableEq

/-- Eligibility window of the `WHERE` clause in `getNextApiKey`:
`is_active = 1 OR (is_active = 0 AND last_used_at IS NOT NULL AND
datetime(last_used_at, '+cd hours') <= datetime('now'))`. -/
def eligibleKey (now : Int) (cd : Nat) (k : ApiKey) : Bool :=
  k.is_active ||
    (!k.is_active &&
      (match k.last_used_at with
       | some t => decide (t + (cd : Int) * 3600 ≤ now)
       | none => false))

/-- `validateRoundRobinIndex`: reset the cursor and record the new size when
the saved `round_robin_keys_count` differs from the current count; record the
count when it was never saved. -/
def validateRoundRobinIndex (cfg : PoolConfig) (currentKeysCount : Nat) : PoolConfig :=
  match cfg.rrCount with
  | some saved =>
      if saved ≠ currentKeysCount then
        { cfg with rrIndex := some 0, rrCount := some currentKeysCount }
      else cfg
  | none => { cfg with rrCount := some currentKeysCount }

/-- The `while (attempts < maxAttempts && !selectedKey)` scan of
`selectRoundRobinFromAvailable`: probe `allKeys[currentIndex % n]`, accept it
when its id occurs in `availableKeys`, otherwise advance the cursor.  Returns
the hit (if any) and the final value of `currentIndex`. -/
def rrScan (allKeys availableKeys : List ApiKey) : Nat → Nat → Option ApiKey × Nat
  | 0, currentIndex => (none, currentIndex)
  | fuel + 1, currentIndex =>
      let n := allKeys.length
      let candidateKey := allKeys.getD (currentIndex % n) default
      if availableKeys.any (fun key => key.id == candidateKey.id) then
        (some candidateKey, currentIndex)
      else
        rrScan allKeys availableKeys fuel ((currentIndex + 1) % n)

/-- Cursor acquisition at the top of `selectRoundRobinFromAvailable`: run
`validateRoundRobinIndex`, then read `round_robin_index`, initializing it to
0 (and recording the pool size) on first use. -/
def rrStart (cfg : PoolConfig) (n : Nat) : Nat × PoolConfig :=
  let cfg1 := validateRoundRobinIndex cfg n
  match cfg1.rrIndex with
  | none => (0, { cfg1 with rrIndex := some 0, rrCount := some n })
  | some i => (i, cfg1)

/-- `selectRoundRobinFromAvailable(allKeys, availableKeys)`: acquire the
persisted cursor, scan forward bounded by `allKeys.length`, fall back to a
uniform-random available key when the scan misses, and persist
`(currentIndex + 1) % allKeys.length`. -/
def selectRoundRobinFromAvailable (cfg : PoolConfig) (allKeys availableKeys : List ApiKey)
    (rand : Nat) : ApiKey × PoolConfig :=
  let start := rrStart cfg allKeys.length
  let scanned := rrScan allKeys availableKeys allKeys.length start.1
  let selectedKey :=
    match scanned.1 with
    | some k => k
    | none => availableKeys.getD (rand % availableKeys.length) default
  let nextIndex := (scanned.2 + 1) % allKeys.length
  (selectedKey, { start.2 with rrIndex := some nextIndex })

/-- `selectLeastUsed`: `keys.reduce` keeping the element with the smallest
`total_requests` (strict `<`, so ties keep the earlier element).  JS `reduce`
without an initial value starts from the head; the empty case throws in JS
and is unreachable from `getNextApiKey`. -/
def selectLeastUsed (keys : List ApiKey) : ApiKey :=
  match keys with
  | [] => default
  | k :: rest =>
      rest.foldl (fun min current =>
        if current.total_requests < min.total_requests then current else min) k

/-- `selectRandom`: `keys[Math.floor(Math.random() * keys.length)]`. -/
def selectRandom (keys : List ApiKey) (rand : Nat) : ApiKey :=
  keys.getD (rand % keys.length) default

/-- The `UPDATE api_keys SET last_used_at = now, total_requests + 1,
updated_at = now, is_active = 1 (if it was 0)` applied on selection. -/
def touchOnSelect (now : Int) (id : Nat) (keys : List ApiKey) : List ApiKey :=
  keys.map (fun k =>
    if k.id = id then
      { k with
        last_used_at := some now
        total_requests := k.total_requests + 1
        updated_at := now
        is_active := true }
    else k)

/-- `getNextApiKey(strategy)`: build the eligible list (`ORDER BY id` query
window), fail with the pool-exhausted error when it is empty, filter by
`error_count < max_errors_threshold` into the available list, fail with the
all-keys-exhausted error when that is empty, dispatch on the strategy
(unknown strategies fall back to round-robin in the source, which the closed
`Strategy` type already covers), reject a selected key with a falsy id, and
finally touch the selected row. -/
def getNextApiKey (st : PoolState) (now : Int) (strategy : Strategy) (rand : Nat) :
    Except SchedErr (ApiKey × PoolState) :=
  let cooldownHours := st.cfg.cooldownHours.getD 24
  let allKeys := st.keys.filter (eligibleKey now cooldownHours)
  if allKeys.isEmpty then
    .error .poolExhausted
  else
    let maxErrorsThreshold := st.cfg.maxErrors.getD 5
    let availableKeys := allKeys.filter (fun key => key.error_count < maxErrorsThreshold)
    if availableKeys.isEmpty then
      .error .allKeysExhausted
    else
      let picked : ApiKey × PoolConfig :=
        match strategy with
        | .round_robin => selectRoundRobinFromAvailable st.cfg allKeys availableKeys rand
        | .least_used => (selectLeastUsed availableKeys, st.cfg)
        | .random => (selectRandom availableKeys rand, st.cfg)
      if picked.1.id = 0 then
        .error .invalidKey
      else
        .ok (picked.1, { keys := touchOnSelect now picked.1.id st.keys, cfg := picked.2 })

/-- `disableKeyOnRateLimit(apiKeyId)`: `is_active = 0`, `last_used_at = now`,
`updated_at = now` for the matching row; the pool config is untouched. -/
def disableKeyOnRateLimit (st : PoolState) (apiKeyId : Nat) (now : Int) : PoolState :=
  { st with
    keys := st.keys.map (fun k =>
      if k.id = apiKeyId then
        { k with
          is_active := false
          last_used_at := some now
          updated_at := now }
      else k) }

/-- Iterated `getNextApiKey` under the round-robin strategy, collecting the
selected ids; a failing call stops the run. -/
def runRoundRobinCalls (st : PoolState) (now : Int) : Nat → List Nat × PoolState
  | 0 => ([], st)
  | n + 1 =>
      match getNextApiKey st now .round_robin 0 with
      | .ok (k, st') =>
          let rest := runRoundRobinCalls st' now n
          (k.id :: rest.1, rest.2)
      | .error _ => ([], st)

/-!
Part 2 embeds the protocol translator's response side and the streaming
pipeline of the worker source (`src/unnamed/part_001`):
`transformCandidates` (`message`/`delta` variants), `transformUsage`,
`checkPromptBlock`, `processCompletionsResponse`, the Stage A event framer
(`parseStream` / `parseStreamFlush` over the regex
`^data: (.*)(?:\n\n|\r\r|\r\n\r\n)`), and the Stage B re-emitter
(`toOpenAiStream` / `toOpenAiStreamFlush`).

Modelling conventions for the translator:
- JSON key-absent versus key-null is significant (`"content" in cand.delta`,
  `JSON.stringify` drops `undefined`), so optional keys are `Option`
  (`none` = key absent) and nullable keys are nested `Option`
  (`some none` = key present with value `null`).
- `JSON.parse` of a Stage A line is abstracted into the input type
  `UpLine`: a line that parses to an object with a truthy `candidates`
  field is `UpLine.ev`, any other line (parse error or missing/falsy
  `candidates`) is `UpLine.raw`, matching the `try/catch` in
  `toOpenAiStream`.
- `generateId()` randomness is threaded as a `gen : String` parameter used
  for the `call_` fallback tool-call id.
- `sseline` stamps `created` with the wall clock and serializes; outputs are
  kept structural (`StreamOut.chunk`), the `created` stamp and the JSON
  serialization being outside the claims.  The `"message"`/`"delta"` key
  name of `transformCandidates(key, cand)` is a serialization detail; both
  variants share `OAChoice` with the payload in `OAChoice.payload`.
-/

/-- One element of `candidates[i].content.parts`. -/
inductive GPart where
  | text (s : String)
  | functionCall (id : Option String) (name : String) (args : String)
  deriving Repr, DecidableEq

structure GCandidate where
  index : Option Nat
  parts : List GPart
  finishReason : Option String
  deriving Repr, DecidableEq

structure GPromptFeedback where
  blockReason : Option String
  deriving Repr, DecidableEq

structure GUsageMetadata where
  candidatesTokenCount : Option Nat
  toolUsePromptTokenCount : Option Nat
  thoughtsTokenCount : Option Nat
  promptTokenCount : Option Nat
  totalTokenCount : Option Nat
  deriving Repr, DecidableEq

/-- Parsed upstream body carrying a truthy `candidates` field. -/
structure GResponse where
  candidates : List GCandidate
  usageMetadata : Option GUsageMetadata
  modelVersion : Option String
  promptFeedback : Option GPromptFeedback
  deriving Repr, DecidableEq

structure OAToolCall where
  id : String
  name : String
  args : String
  deriving Repr, DecidableEq

/-- The message/delta object built by `transformCandidates`. `role` and
`tool_calls` keys may be absent (`none`); the `content` key, when present,
holds `null` (`some none`) or a string (`some (some s)`). -/
structure OADelta where
  role : Option String
  content : Option (Option String)
  tool_calls : Option (List OAToolCall)
  deriving Repr, DecidableEq

/-- A choice of the outbound schema; `payload` is the `message` (non-stream)
or `delta` (stream) key, `none` standing for JSON `null`. -/
structure OAChoice where
  index : Nat
  payload : Option OADelta
  finish_reason : Option String
  deriving Repr, DecidableEq

structure OAUsage where
  completion_tokens : Nat
  prompt_tokens : Option Nat
  total_tokens : Option Nat
  reasoning_tokens : Option Nat
  deriving Repr, DecidableEq

/-- The `SEP` separator joining interleaved text parts. -/
def SEP : String := "\n\n|>"

/-- The `reasonsMap[cand.finishReason] || cand.finishReason` lookup. -/
def mapReason : Option String → Option String
  | some "STOP" => some "stop"
  | some "MAX_TOKENS" => some "length"
  | some "SAFETY" => some "content_filter"
  | some "RECITATION" => some "content_filter"
  | some other => some other
  | none => none

/-- Core of `transformCandidates(key, cand)`: walk `cand.content.parts`,
pushing `functionCall` parts onto `tool_calls` (with the `call_` + generated
id fallback) and text parts onto the content list, then join the texts with
`SEP`, an empty join becoming `null`. -/
def buildMessage (gen : String) (cand : GCandidate) : OADelta :=
  let tool_calls := cand.parts.filterMap (fun p =>
    match p with
    | .functionCall fid name args =>
        some { id := fid.getD ("call_" ++ gen), name := name, args := args }
    | .text _ => none)
  let texts := cand.parts.filterMap (fun p =>
    match p with
    | .text s => some s
    | .functionCall _ _ _ => none)
  let joined := String.intercalate SEP texts
  { role := some "assistant"
    content := some (if joined = "" then none else some joined)
    tool_calls := if tool_calls.isEmpty then none else some tool_calls }

/-- `transformCandidates`: the full choice, with `index || 0` defaulting and
the finish-reason mapping (`tool_calls` wins over the table). -/
def transformCandidates (gen : String) (cand : GCandidate) : OAChoice :=
  let message := buildMessage gen cand
  { index := cand.index.getD 0
    payload := some message
    finish_reason :=
      if message.tool_calls.isSome then some "tool_calls"
      else mapReason cand.finishReason }

/-- `sum(...numbers)`: absent sub-counters count as zero. -/
def usageSum (ns : List (Option Nat)) : Nat :=
  ns.foldl (fun total num => total + num.getD 0) 0

/-- `transformUsage`: completion tokens are the sum of the three documented
sub-counters; prompt/total counts pass through. -/
def transformUsage (data : GUsageMetadata) : OAUsage :=
  { completion_tokens :=
      usageSum [data.candidatesTokenCount, data.toolUsePromptTokenCount, data.thoughtsTokenCount]
    prompt_tokens := data.promptTokenCount
    total_tokens := data.totalTokenCount
    reasoning_tokens := data.thoughtsTokenCount }

/-- JS truthiness of `promptFeedback?.blockReason`. -/
def blockTruthy : Option GPromptFeedback → Bool
  | some f =>
      match f.blockReason with
      | some s => !(s == "")
      | none => false
  | none => false

/-- `checkPromptBlock(choices, promptFeedback, key)` on an empty choice list:
push one synthesized choice (index 0, null payload, `content_filter`) when
the prompt-level block indicator is set.  (On a non-empty list the source
returns early without touching it; callers only invoke this on `[]`.) -/
def checkPromptBlock (pf : Option GPromptFeedback) : List OAChoice :=
  if blockTruthy pf then
    [{ index := 0, payload := none, finish_reason := some "content_filter" }]
  else []

/-- The non-streaming completion object built by
`processCompletionsResponse` (its `id`, `created`, `object` fields carry no
logic and are omitted from the model). -/
structure OACompletion where
  choices : List OAChoice
  model : String
  usage : Option OAUsage
  deriving Repr, DecidableEq

/-- `processCompletionsResponse(data, model, id)`: map every candidate
through the `message` variant of `transformCandidates`, then on an empty
choice list run `checkPromptBlock`. -/
def processCompletionsResponse (gen : String) (data : GResponse) (model : String) :
    OACompletion :=
  let choices := data.candidates.map (transformCandidates gen)
  { choices := if choices.isEmpty then checkPromptBlock data.promptFeedback else choices
    model := data.modelVersion.getD model
    usage := data.usageMetadata.map transformUsage }

/-- A chunk object of the outbound stream (`object: "chat.completion.chunk"`;
`usage`: absent / `null` / a usage object). -/
structure OAChunk where
  id : String
  choices : List OAChoice
  model : String
  usage : Option (Option OAUsage)
  deriving Repr, DecidableEq

/-- What Stage B hands to the controller: a passed-through raw line, the
`NaN` value produced by the `line =+ delimiter` slip in the catch branch, a
structural chunk (serialized by `sseline`), the `data: [DONE]` sentinel, or
the thrown `TypeError` of `sseline(undefined)` on a sparse `last` array. -/
inductive StreamOut where
  | raw (line : String)
  | nanValue
  | chunk (c : OAChunk)
  | doneSentinel
  | thrown
  deriving Repr, DecidableEq

/-- Stage B input: the result of `JSON.parse` on a Stage A line. -/
inductive UpLine where
  | raw (line : String)
  | ev (data : GResponse)
  deriving Repr, DecidableEq

/-- Mutable state of the `toOpenAiStream` transform: the per-choice-index
`last` array and the flag set by `parseStreamFlush` on the shared object. -/
structure BState where
  id : String
  model : String
  gen : String
  streamIncludeUsage : Bool
  last : List (Option OAChunk)
  is_buffers_rest : Bool
  deriving Repr, DecidableEq

/-- `this.last[i]` — JS indexing past the end (or into a hole) yields
`undefined`. -/
def lastAt (l : List (Option OAChunk)) (i : Nat) : Option OAChunk :=
  (l.get? i).join

/-- `this.last[i] = obj` — JS array assignment, padding with holes when `i`
is past the end. -/
def setLast (l : List (Option OAChunk)) (i : Nat) (v : OAChunk) : List (Option OAChunk) :=
  if i < l.length then l.set i (some v)
  else l ++ List.replicate (i - l.length) none ++ [some v]

/-- The delta left in a stored terminal event: `cand.delta = {}` (all keys
absent). -/
def emptyDelta : OADelta :=
  { role := none, content := none, tool_calls := none }

/-- `toOpenAiStream(line, controller)`, one step of Stage B. -/
def toOpenAiStream (st : BState) (line : UpLine) : BState × List StreamOut :=
  match line with
  | .raw s =>
      if !st.is_buffers_rest then (st, [.nanValue])
      else (st, [.raw s])
  | .ev data =>
      let obj : OAChunk :=
        { id := st.id
          choices := data.candidates.map (transformCandidates st.gen)
          model := data.modelVersion.getD st.model
          usage :=
            if data.usageMetadata.isSome && st.streamIncludeUsage then some none
            else none }
      match obj.choices with
      | [] =>
          (st, [.chunk { obj with choices := checkPromptBlock data.promptFeedback }])
      | cand :: restChoices =>
          let finish_reason := cand.finish_reason
          let cand1 := { cand with finish_reason := none }
          let firstTime := lastAt st.last cand1.index = none
          let announce : OAChunk :=
            { obj with
              choices := [{ cand1 with
                            payload := some { role := some "assistant"
                                              content := some (some "")
                                              tool_calls := none } }] }
          let d1 := { cand1.payload.getD emptyDelta with role := none }
          let cand2 := { cand1 with payload := some d1 }
          let middle : List StreamOut :=
            if d1.content.isSome then [.chunk { obj with choices := cand2 :: restChoices }]
            else []
          let usageUpd :=
            match data.usageMetadata with
            | some um => if st.streamIncludeUsage then some (some (transformUsage um)) else obj.usage
            | none => obj.usage
          let candF := { cand2 with finish_reason := finish_reason, payload := some emptyDelta }
          let stored := { obj with choices := candF :: restChoices, usage := usageUpd }
          ({ st with last := setLast st.last cand1.index stored },
           (if firstTime then [.chunk announce] else []) ++ middle)

/-- `toOpenAiStreamFlush`: walk `this.last`; `sseline` of a hole throws,
aborting the flush before the `[DONE]` sentinel. -/
def flushLast : List (Option OAChunk) → List StreamOut
  | [] => [.doneSentinel]
  | some c :: rest => .chunk c :: flushLast rest
  | none :: _ => [.thrown]

def toOpenAiStreamFlush (st : BState) : List StreamOut :=
  if st.last.length > 0 then flushLast st.last else []

/-- Fold `toOpenAiStream` over the framed lines. -/
def processLines : BState → List UpLine → BState × List StreamOut
  | st, [] => (st, [])
  | st, l :: ls =>
      let step := toOpenAiStream st l
      let rest := processLines step.1 ls
      (rest.1, step.2 ++ rest.2)

/-- Stage B end to end: transform every line, then flush. -/
def runPipeline (st : BState) (lines : List UpLine) : List StreamOut :=
  let p := processLines st lines
  p.2 ++ toOpenAiStreamFlush p.1

/-- The fresh Stage B state built at
`new TransformStream({... model, id, last: [], shared})`. -/
def initBState (id model gen : String) (streamIncludeUsage : Bool) : BState :=
  { id := id, model := model, gen := gen, streamIncludeUsage := streamIncludeUsage,
    last := [], is_buffers_rest := false }

/-!
Stage A, the event framer.  `parseStream` appends the incoming chunk to the
buffer and repeatedly strips the leading match of
`/^data: (.*)(?:\n\n|\r\r|\r\n\r\n)/`, enqueueing capture group 1.  The
buffer is a `List Char`; `.` in a JavaScript regex matches every character
except the line terminators `\n`, `\r`, `U+2028`, `U+2029`, so the greedy
capture is exactly the maximal leading run of such characters after the
`data: ` prefix, and the alternation is tried in source order at the
position where that run ends.  The drain loop is written with explicit fuel
(one extraction consumes at least eight characters, so `b.length` fuel
always suffices; `drainBuffer_eq` below recovers the natural unfolding).
-/

def dataPrefix : List Char := ['d', 'a', 't', 'a', ':', ' ']

/-- Characters matched by `.` in a JavaScript regex without the `s` flag. -/
def isDotChar (c : Char) : Bool :=
  !(c == '\n' || c == '\r' || c == '\u2028' || c == '\u2029')

/-- The terminator alternation `(?:\n\n|\r\r|\r\n\r\n)`, tried in source
order; returns the unconsumed suffix on a match. -/
def termMatch : List Char → Option (List Char)
  | c1 :: c2 :: rest =>
      if c1 == '\n' && c2 == '\n' then some rest
      else if c1 == '\r' && c2 == '\r' then some rest
      else if c1 == '\r' && c2 == '\n' then
        match rest with
        | c3 :: c4 :: rest2 => if c3 == '\r' && c4 == '\n' then some rest2 else none
        | _ => none
      else none
  | _ => none

/-- One anchored match of `responseLineRE` against the buffer: the capture
(group 1) and everything after the whole match, or `none`. -/
def matchResponseLine (b : List Char) : Option (List Char × List Char) :=
  if b.take 6 = dataPrefix then
    let rest := b.drop 6
    match termMatch (rest.dropWhile isDotChar) with
    | some r => some (rest.takeWhile isDotChar, r)
    | none => none
  else none

/-- The `do { match / enqueue / cut } while (true)` loop body, fuelled. -/
def drainAux : Nat → List Char → List (List Char) × List Char
  | 0, b => ([], b)
  | fuel + 1, b =>
      match matchResponseLine b with
      | some (ev, r) =>
          let p := drainAux fuel r
          (ev :: p.1, p.2)
      | none => ([], b)

/-- Drain every complete event from the buffer. -/
def drainBuffer (b : List Char) : List (List Char) × List Char :=
  drainAux b.length b

/-- `parseStream(chunk, controller)`: append the chunk, emit every complete
event, keep the rest buffered. -/
def parseStream (buffer chunk : List Char) : List (List Char) × List Char :=
  drainBuffer (buffer ++ chunk)

/-- `parseStreamFlush(controller)`: flush a non-empty remainder as a final
line and raise `shared.is_buffers_rest`. -/
def parseStreamFlush (buffer : List Char) : List (List Char) × Bool :=
  if buffer.isEmpty then ([], false) else ([buffer], true)

/-- Feed a sequence of physical chunks through `parseStream`, returning all
framed events in order and the final buffer. -/
def feedChunks : List Char → List (List Char) → List (List Char) × List Char
  | buffer, [] => ([], buffer)
  | buffer, c :: cs =>
      let p := parseStream buffer c
      let rest := feedChunks p.2 cs
      (p.1 ++ rest.1, rest.2)

/-!
Claim-side predicates: the spec's eligibility wording (to be compared with
the embedded `eligibleKey`), the per-index delta history of an output
stream, and the role-announcement discipline it is claimed to satisfy.
-/

/-- Modelled from the spec's words (for comparison with `eligibleKey`):
"active, OR (inactive AND last-used set AND now - last-used >= cooldown
duration)". -/
def eligibleSpec (now : Int) (cd : Nat) (k : ApiKey) : Prop :=
  k.is_active = true ∨
    (k.is_active = false ∧ ∃ t, k.last_used_at = some t ∧ (cd : Int) * 3600 ≤ now - t)

/-- All deltas emitted for choice index `i`, in emission order (non-chunk
outputs and null payloads contribute nothing). -/
def deltasFor (i : Nat) (outs : List StreamOut) : List OADelta :=
  outs.flatMap (fun o =>
    match o with
    | .chunk c => c.choices.filterMap (fun ch => if ch.index = i then ch.payload else none)
    | _ => [])

/-- The claimed per-index discipline: the first delta (if any) announces the
role with empty content, and no later delta carries the role key. -/
def RoleOnce : List OADelta → Prop
  | [] => True
  | d :: rest =>
      d.role = some "assistant" ∧ d.content = some (some "") ∧
        ∀ d2 ∈ rest, d2.role = none

/-- Lines whose parsed form carries exactly one candidate — the shape the
source itself asserts (`console.assert(data.candidates.length === 1)`). -/
def oneCandidate : UpLine → Bool
  | .raw _ => true
  | .ev d => d.candidates.length == 1

/-- Invariant tying the `last` cache to the emission history: an index with
no cached terminal event has emitted no delta; an index with one has emitted
a well-formed history (role first, then roleless) and caches a single
roleless choice for itself. -/
def LastInv (st : BState) (outs : List StreamOut) : Prop :=
  ∀ i : Nat,
    (lastAt st.last i = none → deltasFor i outs = []) ∧
    (∀ c, lastAt st.last i = some c →
      deltasFor i outs ≠ [] ∧ RoleOnce (deltasFor i outs) ∧
        ∀ ch ∈ c.choices, ch.index = i ∧ ∃ d, ch.payload = some d ∧ d.role = none)

/-!
Theorems.  Shared helper lemmas come first, then one theorem per claim
(with a closed witness for every theorem that carries a hypothesis).
-/

/-- C3: `getNextApiKey` treats a credential as eligible exactly when it is
active, or it is inactive with a non-null last-used timestamp and now minus
last-used is at least the configured cooldown; with cooldown 24h an inactive
credential last used 25h ago is eligible while one last used 1h ago is not. -/
theorem c3_eligibility_predicate :
    (∀ (now : Int) (cd : Nat) (k : ApiKey),
        eligibleKey now cd k = true ↔ eligibleSpec now cd k) ∧
    eligibleKey 0 24 ⟨1, false, some (-(25 * 3600)), 0, 0, 0⟩ = true ∧
    eligibleKey 0 24 ⟨1, false, some (-3600), 0, 0, 0⟩ = false := by
  refine ⟨fun now cd k => ?_, by decide, by decide⟩
  unfold eligibleKey eligibleSpec
  cases hA : k.is_active <;> cases hL : k.last_used_at <;> simp [hA, hL]
  omega

/-- C9: a non-streaming upstream response with zero candidates and a set
prompt-level block indicator yields exactly one synthesized choice with
index 0, a null message and finish reason `content_filter`. -/
theorem c9_prompt_block_synthesis (gen model : String) (data : GResponse) (br : String)
    (hc : data.candidates = []) (hbr : data.promptFeedback = some ⟨some br⟩)
    (hne : br ≠ "") :
    (processCompletionsResponse gen data model).choices =
      [{ index := 0, payload := none, finish_reason := some "content_filter" }] := by
  simp [processCompletionsResponse, hc, checkPromptBlock, blockTruthy, hbr, hne]

theorem c9_prompt_block_synthesis_witness :
    ((⟨[], none, none, some ⟨some "SAFETY"⟩⟩ : GResponse).candidates = [] ∧
      (⟨[], none, none, some ⟨some "SAFETY"⟩⟩ : GResponse).promptFeedback =
        some ⟨some "SAFETY"⟩ ∧ "SAFETY" ≠ "") ∧
    (processCompletionsResponse "g" ⟨[], none, none, some ⟨some "SAFETY"⟩⟩ "m").choices =
      [{ index := 0, payload := none, finish_reason := some "content_filter" }] :=
  ⟨⟨rfl, rfl, by decide⟩,
    c9_prompt_block_synthesis "g" "m" ⟨[], none, none, some ⟨some "SAFETY"⟩⟩ "SAFETY"
      rfl rfl (by decide)⟩

/-- C7 (against the claim's suppression half): Stage B does NOT suppress an
intermediate delta whose content is empty.  On a single upstream event with
one candidate, no parts and `finishReason: MAX_TOKENS`, the pipeline emits
the role announcement, then an intermediate delta with `content: null` and
no tool calls (the `"content" in cand.delta` guard is always true because
`transformCandidates` always writes the `content` key, so the branch the
source comments with `prevent empty data (e.g. when MAX_TOKENS)` never
suppresses anything), and finally — as the claim's second half states — the
terminal event with the empty delta and finish reason `length`, then the
sentinel. -/
theorem c7_empty_delta_not_suppressed :
    runPipeline (initBState "id0" "m0" "g0" false)
      [.ev ⟨[⟨none, [], some "MAX_TOKENS"⟩], none, none, none⟩] =
      [.chunk ⟨"id0", [⟨0, some ⟨some "assistant", some (some ""), none⟩, none⟩], "m0", none⟩,
       .chunk ⟨"id0", [⟨0, some ⟨none, some none, none⟩, none⟩], "m0", none⟩,
       .chunk ⟨"id0", [⟨0, some ⟨none, none, none⟩, some "length"⟩], "m0", none⟩,
       .doneSentinel] := by
  decide

/-- C8 (against the claim): a non-JSON line is NOT passed through verbatim
in the ordinary (terminator-stripped) case.  `line =+ delimiter` in the
catch branch of `toOpenAiStream` assigns `+"\n\n"`, i.e. `NaN`, to `line`,
so the controller receives the number `NaN` instead of the original line;
only when `is_buffers_rest` is set (the unterminated flush remainder) is the
line forwarded unchanged — and then without the terminator the claim calls
for. -/
theorem c8_malformed_line_not_passed_verbatim :
    toOpenAiStream (initBState "id0" "m0" "g0" false) (.raw "oops") =
      (initBState "id0" "m0" "g0" false, [.nanValue]) ∧
    toOpenAiStream { initBState "id0" "m0" "g0" false with is_buffers_rest := true }
        (.raw "oops") =
      ({ initBState "id0" "m0" "g0" false with is_buffers_rest := true }, [.raw "oops"]) :=
  ⟨rfl, rfl⟩

/-- C5: whenever the eligible-list size at a round-robin call differs from
the recorded pool size, the persisted cursor is reset to 0 and the new size
recorded before the selection is made — the selection proceeds exactly as it
would from a configuration already holding cursor 0 and the new size. -/
theorem c5_cursor_reset_on_size_change (cfg : PoolConfig) (m : Nat)
    (allKeys availableKeys : List ApiKey) (rand : Nat)
    (hsaved : cfg.rrCount = some m) (hne : m ≠ allKeys.length) :
    (validateRoundRobinIndex cfg allKeys.length).rrIndex = some 0 ∧
    (validateRoundRobinIndex cfg allKeys.length).rrCount = some allKeys.length ∧
    selectRoundRobinFromAvailable cfg allKeys availableKeys rand =
      selectRoundRobinFromAvailable
        { cfg with rrIndex := some 0, rrCount := some allKeys.length }
        allKeys availableKeys rand := by
  refine ⟨?_, ?_, ?_⟩ <;>
    simp [validateRoundRobinIndex, selectRoundRobinFromAvailable, rrStart, hsaved, hne]

theorem c5_cursor_reset_on_size_change_witness :
    ((⟨none, none, some 7, some 2⟩ : PoolConfig).rrCount = some 2 ∧
      2 ≠ [(default : ApiKey)].length) ∧
    ((validateRoundRobinIndex ⟨none, none, some 7, some 2⟩ [(default : ApiKey)].length).rrIndex =
        some 0 ∧
      (validateRoundRobinIndex ⟨none, none, some 7, some 2⟩
            [(default : ApiKey)].length).rrCount = some [(default : ApiKey)].length ∧
      selectRoundRobinFromAvailable ⟨none, none, some 7, some 2⟩ [(default : ApiKey)]
          [(default : ApiKey)] 0 =
        selectRoundRobinFromAvailable
          { (⟨none, none, some 7, some 2⟩ : PoolConfig) with
            rrIndex := some 0
            rrCount := some [(default : ApiKey)].length }
          [(default : ApiKey)] [(default : ApiKey)] 0) :=
  ⟨⟨rfl, by decide⟩,
    c5_cursor_reset_on_size_change ⟨none, none, some 7, some 2⟩ 2 [(default : ApiKey)]
      [(default : ApiKey)] 0 rfl (by decide)⟩

/-- A hit returned by the scan satisfied the availability test. -/
theorem rrScan_any_of_some (allKeys avail : List ApiKey) :
    ∀ (fuel ci : Nat) (k : ApiKey), (rrScan allKeys avail fuel ci).1 = some k →
      avail.any (fun key => key.id == k.id) = true := by
  intro fuel
  induction fuel with
  | zero => intro ci k h; simp [rrScan] at h
  | succ fuel ih =>
      intro ci k h
      simp only [rrScan] at h
      split at h
      · rename_i hany
        simp only [Option.some.injEq] at h
        exact h ▸ hany
      · exact ih _ _ h

/-- A hit returned by the scan is an element of the eligible list. -/
theorem rrScan_mem_of_some (allKeys avail : List ApiKey) (hne : allKeys ≠ []) :
    ∀ (fuel ci : Nat) (k : ApiKey), (rrScan allKeys avail fuel ci).1 = some k →
      k ∈ allKeys := by
  intro fuel
  induction fuel with
  | zero => intro ci k h; simp [rrScan] at h
  | succ fuel ih =>
      intro ci k h
      simp only [rrScan] at h
      split at h
      · simp only [Option.some.injEq] at h
        have hlen : 0 < allKeys.length := List.length_pos.mpr hne
        have hb : ci % allKeys.length < allKeys.length := Nat.mod_lt _ hlen
        rw [← h, List.getD_eq_getElem allKeys default hb]
        exact List.getElem_mem hb
      · exact ih _ _ h

/-- When the scan returns no hit, every probe within the fuel budget failed
the availability test. -/
theorem rrScan_none_probe (allKeys avail : List ApiKey) :
    ∀ (fuel ci : Nat), (rrScan allKeys avail fuel ci).1 = none →
      ∀ j < fuel,
        avail.any (fun key =>
          key.id == (allKeys.getD ((ci + j) % allKeys.length) default).id) = false := by
  intro fuel
  induction fuel with
  | zero => intro ci _ j hj; omega
  | succ fuel ih =>
      intro ci h j hj
      simp only [rrScan] at h
      split at h
      · simp at h
      · rename_i hany
        match j with
        | 0 => simpa using hany
        | j + 1 =>
            have h2 := ih ((ci + 1) % allKeys.length) h j (by omega)
            rw [Nat.mod_add_mod] at h2
            have e : ci + 1 + j = ci + (j + 1) := by omega
            rwa [e] at h2

/-- A forward scan of length `n` starting anywhere visits every residue. -/
theorem mod_shift_hit (n ci idx : Nat) (hn : 0 < n) (hidx : idx < n) :
    ∃ j < n, (ci + j) % n = idx := by
  have hr : ci % n < n := Nat.mod_lt _ hn
  by_cases hle : ci % n ≤ idx
  · refine ⟨idx - ci % n, by omega, ?_⟩
    conv_lhs => rw [Nat.add_mod]
    rw [Nat.mod_eq_of_lt (show idx - ci % n < n by omega)]
    have e : ci % n + (idx - ci % n) = idx := by omega
    rw [e, Nat.mod_eq_of_lt hidx]
  · refine ⟨n + idx - ci % n, by omega, ?_⟩
    conv_lhs => rw [Nat.add_mod]
    rw [Nat.mod_eq_of_lt (show n + idx - ci % n < n by omega)]
    have e : ci % n + (n + idx - ci % n) = n + idx := by omega
    rw [e, Nat.add_mod_left, Nat.mod_eq_of_lt hidx]

/-- With a non-empty available set drawn from the eligible list, the bounded
scan always hits. -/
theorem rrScan_finds (allKeys avail : List ApiKey) (ci : Nat)
    (h1 : allKeys ≠ []) (h2 : avail ≠ [])
    (h3 : ∀ a ∈ avail, ∃ k ∈ allKeys, k.id = a.id) :
    ∃ k, (rrScan allKeys avail allKeys.length ci).1 = some k := by
  by_contra hno
  push_neg at hno
  have hnone : (rrScan allKeys avail allKeys.length ci).1 = none := by
    rcases hres : (rrScan allKeys avail allKeys.length ci).1 with _ | k
    · rfl
    · exact absurd hres (hno k)
  obtain ⟨a, ha⟩ := List.exists_mem_of_ne_nil avail h2
  obtain ⟨k, hk, hid⟩ := h3 a ha
  obtain ⟨idx, hidx, hget⟩ := List.mem_iff_getElem.mp hk
  have hn : 0 < allKeys.length := List.length_pos.mpr h1
  obtain ⟨j, hj, hmod⟩ := mod_shift_hit allKeys.length ci idx hn hidx
  have hprobe := rrScan_none_probe allKeys avail allKeys.length ci hnone j hj
  rw [hmod, List.getD_eq_getElem allKeys default hidx, hget] at hprobe
  have hyes : avail.any (fun key => key.id == k.id) = true :=
    List.any_eq_true.mpr ⟨a, ha, by simp [hid]⟩
  rw [hyes] at hprobe
  cases hprobe

/-- C10: whenever the available set is a non-empty subset (by id) of the
eligible list, the forward scan bounded by the eligible list's length lands
on an available credential, for every starting cursor; consequently the
uniform-random fallback branch of `selectRoundRobinFromAvailable` is never
taken and the selected key is available. -/
theorem c10_fallback_unreachable (allKeys availableKeys : List ApiKey) (cfg : PoolConfig)
    (ci rand : Nat) (h1 : allKeys ≠ []) (h2 : availableKeys ≠ [])
    (h3 : ∀ a ∈ availableKeys, ∃ k ∈ allKeys, k.id = a.id) :
    (∃ k, (rrScan allKeys availableKeys allKeys.length ci).1 = some k ∧
        ∃ a ∈ availableKeys, a.id = k.id) ∧
    ∃ a ∈ availableKeys,
      a.id = (selectRoundRobinFromAvailable cfg allKeys availableKeys rand).1.id := by
  constructor
  · obtain ⟨k, hk⟩ := rrScan_finds allKeys availableKeys ci h1 h2 h3
    refine ⟨k, hk, ?_⟩
    obtain ⟨a, ha, hb⟩ := List.any_eq_true.mp (rrScan_any_of_some allKeys availableKeys _ _ _ hk)
    exact ⟨a, ha, eq_of_beq hb⟩
  · obtain ⟨k, hk⟩ :=
      rrScan_finds allKeys availableKeys (rrStart cfg allKeys.length).1 h1 h2 h3
    obtain ⟨a, ha, hb⟩ := List.any_eq_true.mp (rrScan_any_of_some allKeys availableKeys _ _ _ hk)
    refine ⟨a, ha, ?_⟩
    simp only [selectRoundRobinFromAvailable, hk]
    exact eq_of_beq hb

theorem c10_fallback_unreachable_witness :
    (([⟨1, true, none, 0, 0, 0⟩, ⟨2, true, none, 0, 0, 0⟩] : List ApiKey) ≠ [] ∧
      ([⟨2, true, none, 0, 0, 0⟩] : List ApiKey) ≠ [] ∧
      ∀ a ∈ ([⟨2, true, none, 0, 0, 0⟩] : List ApiKey),
        ∃ k ∈ ([⟨1, true, none, 0, 0, 0⟩, ⟨2, true, none, 0, 0, 0⟩] : List ApiKey),
          k.id = a.id) ∧
    ((∃ k, (rrScan [⟨1, true, none, 0, 0, 0⟩, ⟨2, true, none, 0, 0, 0⟩]
          [⟨2, true, none, 0, 0, 0⟩] 2 0).1 = some k ∧
        ∃ a ∈ ([⟨2, true, none, 0, 0, 0⟩] : List ApiKey), a.id = k.id) ∧
      ∃ a ∈ ([⟨2, true, none, 0, 0, 0⟩] : List ApiKey),
        a.id = (selectRoundRobinFromAvailable ⟨none, none, none, none⟩
            [⟨1, true, none, 0, 0, 0⟩, ⟨2, true, none, 0, 0, 0⟩]
            [⟨2, true, none, 0, 0, 0⟩] 0).1.id) := by
  refine ⟨⟨by decide, by decide, by decide⟩, ?_⟩
  have h := c10_fallback_unreachable
    [⟨1, true, none, 0, 0, 0⟩, ⟨2, true, none, 0, 0, 0⟩]
    [⟨2, true, none, 0, 0, 0⟩] ⟨none, none, none, none⟩ 0 0
    (by decide) (by decide) (by decide)
  simpa using h

/-- The `reduce`-style minimum fold picks an element of the list (or the
initial accumulator). -/
theorem foldl_pick_mem (l : List ApiKey) (a : ApiKey) :
    l.foldl (fun min current =>
        if current.total_requests < min.total_requests then current else min) a = a ∨
    l.foldl (fun min current =>
        if current.total_requests < min.total_requests then current else min) a ∈ l := by
  induction l generalizing a with
  | nil => left; rfl
  | cons c l ih =>
      simp only [List.foldl_cons]
      rcases ih (if c.total_requests < a.total_requests then c else a) with h | h
      · by_cases hc : c.total_requests < a.total_requests
        · right; rw [h, if_pos hc]; exact List.mem_cons_self c l
        · left; rw [h, if_neg hc]
      · right; exact List.mem_cons_of_mem _ h

theorem selectLeastUsed_mem (keys : List ApiKey) (h : keys ≠ []) :
    selectLeastUsed keys ∈ keys := by
  match keys with
  | [] => exact absurd rfl h
  | k :: rest =>
      rcases foldl_pick_mem rest k with h2 | h2
      · rw [selectLeastUsed, h2]; exact List.mem_cons_self k rest
      · rw [selectLeastUsed]; exact List.mem_cons_of_mem _ h2

theorem getD_mod_mem (keys : List ApiKey) (r : Nat) (h : keys ≠ []) :
    keys.getD (r % keys.length) default ∈ keys := by
  have hl : 0 < keys.length := List.length_pos.mpr h
  rw [List.getD_eq_getElem _ _ (Nat.mod_lt _ hl)]
  exact List.getElem_mem _

/-- What round-robin selection returns is an eligible key (scan hits are
probes into `allKeys`; the fallback picks from `availableKeys`, itself a
filter of `allKeys`). -/
theorem selectRR_mem (cfg : PoolConfig) (allKeys avail : List ApiKey) (rand : Nat)
    (h1 : allKeys ≠ []) (h2 : avail ≠ []) (hsub : ∀ a ∈ avail, a ∈ allKeys) :
    (selectRoundRobinFromAvailable cfg allKeys avail rand).1 ∈ allKeys := by
  simp only [selectRoundRobinFromAvailable]
  rcases hscan : (rrScan allKeys avail allKeys.length (rrStart cfg allKeys.length).1).1
    with _ | k
  · exact hsub _ (getD_mod_mem avail rand h2)
  · exact rrScan_mem_of_some allKeys avail h1 _ _ _ hscan

/-- Any key returned by `getNextApiKey` came from the eligible list. -/
theorem getNextApiKey_ok_mem (st : PoolState) (now : Int) (strategy : Strategy)
    (rand : Nat) (sel : ApiKey) (st' : PoolState)
    (h : getNextApiKey st now strategy rand = .ok (sel, st')) :
    sel ∈ st.keys.filter (eligibleKey now (st.cfg.cooldownHours.getD 24)) := by
  simp only [getNextApiKey] at h
  split at h
  · exact absurd h (by simp)
  · rename_i hAll
    split at h
    · exact absurd h (by simp)
    · rename_i hAvail
      split at h
      · exact absurd h (by simp)
      · rename_i hid
        simp only [Except.ok.injEq, Prod.mk.injEq] at h
        obtain ⟨rfl, -⟩ := h
        simp only [List.isEmpty_iff] at hAll hAvail
        have hsub : ∀ a ∈ (st.keys.filter
              (eligibleKey now (st.cfg.cooldownHours.getD 24))).filter
              (fun key => key.error_count < st.cfg.maxErrors.getD 5),
            a ∈ st.keys.filter (eligibleKey now (st.cfg.cooldownHours.getD 24)) :=
          fun a ha => (List.mem_filter.mp ha).1
        cases strategy with
        | round_robin => exact selectRR_mem _ _ _ _ hAll hAvail hsub
        | least_used => exact hsub _ (selectLeastUsed_mem _ hAvail)
        | random => exact hsub _ (getD_mod_mem _ _ hAvail)

/-- C4: after `disableKeyOnRateLimit(id)` (inactive, `last_used_at = now`),
no `getNextApiKey` call — any strategy — returns that id while now minus the
disable time is below the cooldown; and when it is the sole credential the
call fails with the pool-exhausted error. -/
theorem c4_cooldown_hides_rate_limited (st : PoolState) (apiKeyId : Nat) (t0 now : Int)
    (hcool : now < t0 + (st.cfg.cooldownHours.getD 24 : Int) * 3600) :
    (∀ (strategy : Strategy) (rand : Nat) (sel : ApiKey) (st' : PoolState),
        getNextApiKey (disableKeyOnRateLimit st apiKeyId t0) now strategy rand =
          .ok (sel, st') → sel.id ≠ apiKeyId) ∧
    (st.keys.map ApiKey.id = [apiKeyId] →
      ∀ (strategy : Strategy) (rand : Nat),
        getNextApiKey (disableKeyOnRateLimit st apiKeyId t0) now strategy rand =
          .error .poolExhausted) := by
  constructor
  · intro strategy rand sel st' h heq
    have hmem := getNextApiKey_ok_mem _ now strategy rand sel st' h
    rw [List.mem_filter] at hmem
    obtain ⟨hmemK, helig⟩ := hmem
    simp only [disableKeyOnRateLimit, List.mem_map] at hmemK
    obtain ⟨x, hx, hxe⟩ := hmemK
    have hcfg : (disableKeyOnRateLimit st apiKeyId t0).cfg = st.cfg := rfl
    rw [hcfg] at helig
    by_cases hxid : x.id = apiKeyId
    · rw [if_pos hxid] at hxe
      rw [← hxe] at helig
      simp only [eligibleKey, Bool.not_false, Bool.true_and, Bool.false_or,
        decide_eq_true_eq] at helig
      omega
    · rw [if_neg hxid] at hxe
      rw [← hxe] at heq
      exact hxid heq
  · intro hsole strategy rand
    match hks : st.keys, hsole with
    | [k0], _ =>
        have hk0 : k0.id = apiKeyId := by
          rw [hks] at hsole
          simpa using hsole
        have hef : ∀ ec tr, eligibleKey now (st.cfg.cooldownHours.getD 24)
            ⟨apiKeyId, false, some t0, ec, tr, t0⟩ = false := by
          intro ec tr
          simp only [eligibleKey, Bool.not_false, Bool.true_and, Bool.false_or,
            decide_eq_false_iff_not]
          omega
        simp [getNextApiKey, disableKeyOnRateLimit, hks, hk0, hef]

theorem c4_cooldown_hides_rate_limited_witness :
    ((3600 : Int) < 0 +
        (((⟨[⟨1, true, none, 0, 0, 0⟩], ⟨none, none, none, none⟩⟩ :
          PoolState).cfg.cooldownHours.getD 24 : Nat) : Int) * 3600) ∧
    getNextApiKey
        (disableKeyOnRateLimit ⟨[⟨1, true, none, 0, 0, 0⟩], ⟨none, none, none, none⟩⟩ 1 0)
        3600 .round_robin 0 =
      .error .poolExhausted :=
  ⟨by decide,
    (c4_cooldown_hides_rate_limited ⟨[⟨1, true, none, 0, 0, 0⟩], ⟨none, none, none, none⟩⟩
        1 0 3600 (by decide)).2 (by decide) .round_robin 0⟩

/-- `validateRoundRobinIndex` always leaves the recorded size equal to the
current count. -/
theorem validateRoundRobinIndex_rrCount (cfg : PoolConfig) (n : Nat) :
    (validateRoundRobinIndex cfg n).rrCount = some n := by
  unfold validateRoundRobinIndex
  cases h : cfg.rrCount with
  | none => rfl
  | some saved =>
      by_cases he : saved = n
      · simp [he, h]
      · simp [he]

theorem validateRoundRobinIndex_maxErrors (cfg : PoolConfig) (n : Nat) :
    (validateRoundRobinIndex cfg n).maxErrors = cfg.maxErrors := by
  unfold validateRoundRobinIndex
  cases cfg.rrCount with
  | none => rfl
  | some saved =>
      by_cases he : saved = n
      · simp [he]
      · simp [he]

theorem validateRoundRobinIndex_cooldownHours (cfg : PoolConfig) (n : Nat) :
    (validateRoundRobinIndex cfg n).cooldownHours = cfg.cooldownHours := by
  unfold validateRoundRobinIndex
  cases cfg.rrCount with
  | none => rfl
  | some saved =>
      by_cases he : saved = n
      · simp [he]
      · simp [he]

theorem rrStart_rrCount (cfg : PoolConfig) (n : Nat) :
    (rrStart cfg n).2.rrCount = some n := by
  simp only [rrStart]
  cases h : (validateRoundRobinIndex cfg n).rrIndex <;>
    simp [h, validateRoundRobinIndex_rrCount]

theorem rrStart_maxErrors (cfg : PoolConfig) (n : Nat) :
    (rrStart cfg n).2.maxErrors = cfg.maxErrors := by
  simp only [rrStart]
  cases h : (validateRoundRobinIndex cfg n).rrIndex <;>
    simp [h, validateRoundRobinIndex_maxErrors]

theorem rrStart_cooldownHours (cfg : PoolConfig) (n : Nat) :
    (rrStart cfg n).2.cooldownHours = cfg.cooldownHours := by
  simp only [rrStart]
  cases h : (validateRoundRobinIndex cfg n).rrIndex <;>
    simp [h, validateRoundRobinIndex_cooldownHours]

/-- In the steady state (recorded size matches, cursor present) the cursor
is read back unchanged. -/
theorem rrStart_steady (cfg : PoolConfig) (n i : Nat)
    (hC : cfg.rrCount = some n) (hI : cfg.rrIndex = some i) :
    rrStart cfg n = (i, cfg) := by
  unfold rrStart validateRoundRobinIndex
  simp [hC, hI]

/-- A scan whose very first probe is available returns it at once. -/
theorem rrScan_hit_first (allKeys avail : List ApiKey) (fuel ci : Nat) (hf : 0 < fuel)
    (h : avail.any (fun key =>
      key.id == (allKeys.getD (ci % allKeys.length) default).id) = true) :
    rrScan allKeys avail fuel ci =
      (some (allKeys.getD (ci % allKeys.length) default), ci) := by
  match fuel, hf with
  | fuel + 1, _ => simp only [rrScan, h, if_true]

/-- `touchOnSelect` never changes the id column. -/
theorem touchOnSelect_map_id (now : Int) (tid : Nat) (keys : List ApiKey) :
    (touchOnSelect now tid keys).map ApiKey.id = keys.map ApiKey.id := by
  unfold touchOnSelect
  rw [List.map_map]
  apply List.map_congr_left
  intro a _
  by_cases h : a.id = tid <;> simp [h, Function.comp]

/-- Every row after `touchOnSelect` keeps its id and error count, and is
either freshly activated or untouched. -/
theorem touchOnSelect_mem_inv (now : Int) (tid : Nat) (keys : List ApiKey) (k : ApiKey)
    (hk : k ∈ touchOnSelect now tid keys) :
    ∃ x ∈ keys, k.id = x.id ∧ k.error_count = x.error_count ∧
      (k.is_active = true ∨ k = x) := by
  unfold touchOnSelect at hk
  rw [List.mem_map] at hk
  obtain ⟨x, hx, he⟩ := hk
  by_cases h : x.id = tid
  · rw [if_pos h] at he
    exact ⟨x, hx, by rw [← he], by rw [← he], Or.inl (by rw [← he])⟩
  · rw [if_neg h] at he
    exact ⟨x, hx, by rw [← he], by rw [← he], Or.inr he.symm⟩

/-- One round-robin call on a pool where every key is active and under the
error threshold: the key at the cursor is selected and the cursor advances
by one (mod the pool size). -/
theorem rr_call_all_avail (st : PoolState) (now : Int) (rand : Nat)
    (hne : st.keys ≠ [])
    (hact : ∀ k ∈ st.keys, k.is_active = true)
    (hthr : ∀ k ∈ st.keys, k.error_count < st.cfg.maxErrors.getD 5)
    (hid0 : ∀ k ∈ st.keys, k.id ≠ 0) :
    getNextApiKey st now .round_robin rand =
      .ok (st.keys.getD ((rrStart st.cfg st.keys.length).1 % st.keys.length) default,
        ⟨touchOnSelect now
            (st.keys.getD ((rrStart st.cfg st.keys.length).1 % st.keys.length) default).id
            st.keys,
          { (rrStart st.cfg st.keys.length).2 with
            rrIndex := some (((rrStart st.cfg st.keys.length).1 + 1) % st.keys.length) }⟩) := by
  have hfa : st.keys.filter (eligibleKey now (st.cfg.cooldownHours.getD 24)) = st.keys :=
    List.filter_eq_self.mpr (fun k hk => by simp [eligibleKey, hact k hk])
  have hfa2 : st.keys.filter
      (fun key => decide (key.error_count < st.cfg.maxErrors.getD 5)) = st.keys :=
    List.filter_eq_self.mpr (fun k hk => by simp [hthr k hk])
  have hsel : selectRoundRobinFromAvailable st.cfg st.keys st.keys rand =
      (st.keys.getD ((rrStart st.cfg st.keys.length).1 % st.keys.length) default,
        { (rrStart st.cfg st.keys.length).2 with
          rrIndex := some (((rrStart st.cfg st.keys.length).1 + 1) % st.keys.length) }) := by
    have hany : st.keys.any (fun key =>
        key.id == (st.keys.getD
          ((rrStart st.cfg st.keys.length).1 % st.keys.length) default).id) = true :=
      List.any_eq_true.mpr
        ⟨st.keys.getD ((rrStart st.cfg st.keys.length).1 % st.keys.length) default,
          getD_mod_mem st.keys (rrStart st.cfg st.keys.length).1 hne, by simp⟩
    simp only [selectRoundRobinFromAvailable,
      rrScan_hit_first st.keys st.keys st.keys.length _ (List.length_pos.mpr hne) hany]
  simp only [getNextApiKey, hfa, hfa2, List.isEmpty_iff, if_neg hne, hsel,
    if_neg (hid0 _ (getD_mod_mem st.keys _ hne))]

/-- Iterating round-robin calls on an all-available pool walks the id list
from the acquired cursor. -/
theorem runRR_all_avail (now : Int) (cnt : Nat) :
    ∀ (st : PoolState),
      st.keys ≠ [] →
      (∀ k ∈ st.keys, k.is_active = true) →
      (∀ k ∈ st.keys, k.error_count < st.cfg.maxErrors.getD 5) →
      (∀ k ∈ st.keys, k.id ≠ 0) →
      (runRoundRobinCalls st now cnt).1 =
        (List.range cnt).map (fun t =>
          (st.keys.map ApiKey.id).getD
            (((rrStart st.cfg st.keys.length).1 + t) % st.keys.length) 0) := by
  induction cnt with
  | zero => intro st _ _ _ _; rfl
  | succ cnt ih =>
      intro st hne hact hthr hid0
      have hcall := rr_call_all_avail st now 0 hne hact hthr hid0
      rw [runRoundRobinCalls, hcall]
      set n := st.keys.length with hn
      set e := (rrStart st.cfg n).1 with he
      set sel := st.keys.getD (e % n) default with hseldef
      set st' : PoolState :=
        ⟨touchOnSelect now sel.id st.keys,
          { (rrStart st.cfg n).2 with rrIndex := some ((e + 1) % n) }⟩ with hst'
      have hids' : st'.keys.map ApiKey.id = st.keys.map ApiKey.id :=
        touchOnSelect_map_id now sel.id st.keys
      have hlen' : st'.keys.length = n := by
        have := congrArg List.length hids'
        simpa using this
      have hne' : st'.keys ≠ [] := by
        have hpos : 0 < st.keys.length := List.length_pos.mpr hne
        intro hz
        rw [hz] at hlen'
        simp only [List.length_nil] at hlen'
        omega
      have hME : st'.cfg.maxErrors = st.cfg.maxErrors := rrStart_maxErrors st.cfg n
      have hact' : ∀ k ∈ st'.keys, k.is_active = true := by
        intro k hk
        obtain ⟨x, hx, _, _, hA⟩ := touchOnSelect_mem_inv now sel.id st.keys k hk
        rcases hA with h | h
        · exact h
        · rw [h]; exact hact x hx
      have hthr' : ∀ k ∈ st'.keys, k.error_count < st'.cfg.maxErrors.getD 5 := by
        intro k hk
        obtain ⟨x, hx, _, hE, _⟩ := touchOnSelect_mem_inv now sel.id st.keys k hk
        rw [hME, hE]
        exact hthr x hx
      have hid0' : ∀ k ∈ st'.keys, k.id ≠ 0 := by
        intro k hk
        obtain ⟨x, hx, hI, _, _⟩ := touchOnSelect_mem_inv now sel.id st.keys k hk
        rw [hI]
        exact hid0 x hx
      have hstart' : (rrStart st'.cfg st'.keys.length).1 = (e + 1) % n := by
        rw [hlen']
        rw [rrStart_steady st'.cfg n ((e + 1) % n) (rrStart_rrCount st.cfg n) rfl]
      dsimp only
      rw [ih st' hne' hact' hthr' hid0', hids', hstart', hlen']
      rw [List.range_succ_eq_map, List.map_cons, List.map_map]
      congr 1
      · have hd : (default : ApiKey).id = 0 := rfl
        rw [Nat.add_zero, ← hd, List.getD_map st.keys default ApiKey.id]
      · apply List.map_congr_left
        intro t _
        simp only [Function.comp]
        congr 1
        rw [Nat.mod_add_mod]
        congr 1
        omega

/-- Walking a list by consecutive indices mod its length, starting anywhere,
is a rotation of the list. -/
theorem range_map_getD_rotate (L : List Nat) (e : Nat) (hL : L ≠ []) :
    (List.range L.length).map (fun t => L.getD ((e + t) % L.length) 0) = L.rotate e := by
  have hpos : 0 < L.length := List.length_pos.mpr hL
  apply List.ext_getElem
  · simp
  · intro t h1 h2
    have hb : (e + t) % L.length < L.length := Nat.mod_lt _ hpos
    have hb2 : (t + e) % L.length < L.length := Nat.mod_lt _ hpos
    simp only [List.getElem_map, List.getElem_range, List.getElem_rotate,
      List.getD_eq_getElem L 0 hb]
    have h3 : L[(e + t) % L.length]? = L[(t + e) % L.length]? := by rw [Nat.add_comm e t]
    rw [List.getElem?_eq_getElem hb, List.getElem?_eq_getElem hb2] at h3
    exact Option.some.inj h3

/-- C2: on a pool of N >= 1 credentials that are all active, all under the
error threshold (so all available), with positive ids, N consecutive
round-robin `getNextApiKey` calls return the pool's ids as a permutation —
each credential id exactly once, none repeated, none skipped. -/
theorem c2_round_robin_cycle (st : PoolState) (now : Int)
    (hne : st.keys ≠ [])
    (hact : ∀ k ∈ st.keys, k.is_active = true)
    (hthr : ∀ k ∈ st.keys, k.error_count < st.cfg.maxErrors.getD 5)
    (hid0 : ∀ k ∈ st.keys, k.id ≠ 0)
    (hnd : (st.keys.map ApiKey.id).Nodup) :
    (runRoundRobinCalls st now st.keys.length).1.Perm (st.keys.map ApiKey.id) ∧
    (runRoundRobinCalls st now st.keys.length).1.Nodup := by
  have hrun := runRR_all_avail now st.keys.length st hne hact hthr hid0
  have hLne : st.keys.map ApiKey.id ≠ [] := by
    intro hz
    exact hne (List.map_eq_nil_iff.mp hz)
  have hlen : (st.keys.map ApiKey.id).length = st.keys.length := List.length_map _ _
  rw [hrun]
  have hrot := range_map_getD_rotate (st.keys.map ApiKey.id)
    (rrStart st.cfg st.keys.length).1 hLne
  rw [hlen] at hrot
  rw [hrot]
  exact ⟨List.rotate_perm _ _, ((List.rotate_perm _ _).symm).nodup hnd⟩

theorem c2_round_robin_cycle_witness :
    (([⟨1, true, none, 0, 0, 0⟩, ⟨2, true, none, 0, 0, 0⟩, ⟨3, true, none, 0, 0, 0⟩] :
        List ApiKey) ≠ [] ∧
      (∀ k ∈ ([⟨1, true, none, 0, 0, 0⟩, ⟨2, true, none, 0, 0, 0⟩,
          ⟨3, true, none, 0, 0, 0⟩] : List ApiKey), k.is_active = true) ∧
      (∀ k ∈ ([⟨1, true, none, 0, 0, 0⟩, ⟨2, true, none, 0, 0, 0⟩,
          ⟨3, true, none, 0, 0, 0⟩] : List ApiKey),
        k.error_count <
          (⟨[⟨1, true, none, 0, 0, 0⟩, ⟨2, true, none, 0, 0, 0⟩, ⟨3, true, none, 0, 0, 0⟩],
            ⟨none, none, none, none⟩⟩ : PoolState).cfg.maxErrors.getD 5) ∧
      (∀ k ∈ ([⟨1, true, none, 0, 0, 0⟩, ⟨2, true, none, 0, 0, 0⟩,
          ⟨3, true, none, 0, 0, 0⟩] : List ApiKey), k.id ≠ 0) ∧
      (([⟨1, true, none, 0, 0, 0⟩, ⟨2, true, none, 0, 0, 0⟩,
          ⟨3, true, none, 0, 0, 0⟩] : List ApiKey).map ApiKey.id).Nodup) ∧
    ((runRoundRobinCalls
        ⟨[⟨1, true, none, 0, 0, 0⟩, ⟨2, true, none, 0, 0, 0⟩, ⟨3, true, none, 0, 0, 0⟩],
          ⟨none, none, none, none⟩⟩ 0
        ([⟨1, true, none, 0, 0, 0⟩, ⟨2, true, none, 0, 0, 0⟩,
          ⟨3, true, none, 0, 0, 0⟩] : List ApiKey).length).1.Perm
      (([⟨1, true, none, 0, 0, 0⟩, ⟨2, true, none, 0, 0, 0⟩,
          ⟨3, true, none, 0, 0, 0⟩] : List ApiKey).map ApiKey.id) ∧
      (runRoundRobinCalls
        ⟨[⟨1, true, none, 0, 0, 0⟩, ⟨2, true, none, 0, 0, 0⟩, ⟨3, true, none, 0, 0, 0⟩],
          ⟨none, none, none, none⟩⟩ 0
        ([⟨1, true, none, 0, 0, 0⟩, ⟨2, true, none, 0, 0, 0⟩,
          ⟨3, true, none, 0, 0, 0⟩] : List ApiKey).length).1.Nodup) :=
  ⟨⟨by decide, by decide, by decide, by decide, by decide⟩,
    c2_round_robin_cycle
      ⟨[⟨1, true, none, 0, 0, 0⟩, ⟨2, true, none, 0, 0, 0⟩, ⟨3, true, none, 0, 0, 0⟩],
        ⟨none, none, none, none⟩⟩ 0
      (by decide) (by decide) (by decide) (by decide) (by decide)⟩

/-- A terminator match consumes two or four characters. -/
theorem termMatch_length (t r : List Char) (h : termMatch t = some r) :
    r.length + 2 ≤ t.length := by
  rcases t with _ | ⟨c1, _ | ⟨c2, rest⟩⟩
  · simp [termMatch] at h
  · simp [termMatch] at h
  · simp only [termMatch] at h
    cases hb1 : (c1 == '\n' && c2 == '\n') with
    | true =>
        simp only [hb1, if_true] at h
        cases h; simp
    | false =>
        simp only [hb1, Bool.false_eq_true, if_false] at h
        cases hb2 : (c1 == '\r' && c2 == '\r') with
        | true =>
            simp only [hb2, if_true] at h
            cases h; simp
        | false =>
            simp only [hb2, Bool.false_eq_true, if_false] at h
            cases hb3 : (c1 == '\r' && c2 == '\n') with
            | true =>
                simp only [hb3, if_true] at h
                rcases rest with _ | ⟨c3, _ | ⟨c4, rest2⟩⟩
                · simp at h
                · simp at h
                · cases hb4 : (c3 == '\r' && c4 == '\n') with
                  | true =>
                      simp only [hb4, if_true] at h
                      cases h; simp
                  | false =>
                      simp only [hb4, Bool.false_eq_true, if_false] at h
                      cases h
            | false =>
                simp only [hb3, Bool.false_eq_true, if_false] at h
                cases h

/-- A terminator match is stable under extending the buffer. -/
theorem termMatch_append (t r s : List Char) (h : termMatch t = some r) :
    termMatch (t ++ s) = some (r ++ s) := by
  rcases t with _ | ⟨c1, _ | ⟨c2, rest⟩⟩
  · simp [termMatch] at h
  · simp [termMatch] at h
  · simp only [termMatch] at h
    simp only [List.cons_append, termMatch]
    cases hb1 : (c1 == '\n' && c2 == '\n') with
    | true =>
        simp only [hb1, if_true] at h ⊢
        cases h; rfl
    | false =>
        simp only [hb1, Bool.false_eq_true, if_false] at h ⊢
        cases hb2 : (c1 == '\r' && c2 == '\r') with
        | true =>
            simp only [hb2, if_true] at h ⊢
            cases h; rfl
        | false =>
            simp only [hb2, Bool.false_eq_true, if_false] at h ⊢
            cases hb3 : (c1 == '\r' && c2 == '\n') with
            | true =>
                simp only [hb3, if_true] at h ⊢
                rcases rest with _ | ⟨c3, _ | ⟨c4, rest2⟩⟩
                · simp at h
                · simp at h
                · simp only [List.cons_append] at h ⊢
                  cases hb4 : (c3 == '\r' && c4 == '\n') with
                  | true =>
                      simp only [hb4, if_true] at h ⊢
                      cases h; rfl
                  | false =>
                      simp only [hb4, Bool.false_eq_true, if_false] at h
                      cases h
            | false =>
                simp only [hb3, Bool.false_eq_true, if_false] at h
                cases h

/-- A terminator match consumed one of the three alternation branches. -/
theorem termMatch_decomp (t r : List Char) (h : termMatch t = some r) :
    ∃ term ∈ [['\n', '\n'], ['\r', '\r'], ['\r', '\n', '\r', '\n']], t = term ++ r := by
  rcases t with _ | ⟨c1, _ | ⟨c2, rest⟩⟩
  · simp [termMatch] at h
  · simp [termMatch] at h
  · simp only [termMatch] at h
    cases hb1 : (c1 == '\n' && c2 == '\n') with
    | true =>
        simp only [hb1, if_true] at h
        cases h
        obtain ⟨e1, e2⟩ := Bool.and_eq_true_iff.mp hb1
        refine ⟨['\n', '\n'], by simp, ?_⟩
        simp [eq_of_beq e1, eq_of_beq e2]
    | false =>
        simp only [hb1, Bool.false_eq_true, if_false] at h
        cases hb2 : (c1 == '\r' && c2 == '\r') with
        | true =>
            simp only [hb2, if_true] at h
            cases h
            obtain ⟨e1, e2⟩ := Bool.and_eq_true_iff.mp hb2
            refine ⟨['\r', '\r'], by simp, ?_⟩
            simp [eq_of_beq e1, eq_of_beq e2]
        | false =>
            simp only [hb2, Bool.false_eq_true, if_false] at h
            cases hb3 : (c1 == '\r' && c2 == '\n') with
            | true =>
                simp only [hb3, if_true] at h
                rcases rest with _ | ⟨c3, _ | ⟨c4, rest2⟩⟩
                · simp at h
                · simp at h
                · cases hb4 : (c3 == '\r' && c4 == '\n') with
                  | true =>
                      simp only [hb4, if_true] at h
                      cases h
                      obtain ⟨e1, e2⟩ := Bool.and_eq_true_iff.mp hb3
                      obtain ⟨e3, e4⟩ := Bool.and_eq_true_iff.mp hb4
                      refine ⟨['\r', '\n', '\r', '\n'], by simp, ?_⟩
                      simp [eq_of_beq e1, eq_of_beq e2, eq_of_beq e3, eq_of_beq e4]
                  | false =>
                      simp only [hb4, Bool.false_eq_true, if_false] at h
                      cases h
            | false =>
                simp only [hb3, Bool.false_eq_true, if_false] at h
                cases h

/-- A matched prefix forces at least the six characters of `data: `. -/
theorem matchResponseLine_pre_length (b : List Char) (hpre : b.take 6 = dataPrefix) :
    6 ≤ b.length := by
  have hl := congrArg List.length hpre
  simp only [List.length_take] at hl
  have : dataPrefix.length = 6 := rfl
  omega

/-- The anchored match is stable under appending more bytes: the same event
and the extended remainder come out. -/
theorem matchResponseLine_append (b s e r : List Char)
    (h : matchResponseLine b = some (e, r)) :
    matchResponseLine (b ++ s) = some (e, r ++ s) := by
  simp only [matchResponseLine] at h ⊢
  split at h
  case isTrue hpre =>
    cases hm : termMatch ((b.drop 6).dropWhile isDotChar) with
    | none => rw [hm] at h; cases h
    | some r0 =>
        rw [hm] at h
        cases h
        have hlen6 : 6 ≤ b.length := matchResponseLine_pre_length b hpre
        have hdw : (b.drop 6).dropWhile isDotChar ≠ [] := by
          intro hz
          rw [hz] at hm
          simp [termMatch] at hm
        have htk : ¬((b.drop 6).takeWhile isDotChar).length = (b.drop 6).length := by
          intro hl
          have hsum := congrArg List.length
            (List.takeWhile_append_dropWhile (p := isDotChar) (l := b.drop 6))
          simp only [List.length_append] at hsum
          have hz : ((b.drop 6).dropWhile isDotChar).length = 0 := by omega
          exact hdw (List.length_eq_zero.mp hz)
        rw [List.take_append_of_le_length hlen6, if_pos hpre,
          List.drop_append_of_le_length hlen6, List.dropWhile_append,
          if_neg (by simpa [List.isEmpty_iff] using hdw),
          termMatch_append _ _ s hm, List.takeWhile_append, if_neg htk]
  case isFalse hpre => cases h

/-- A successful match consumes at least one character (in fact at least
eight), so the remainder is strictly shorter than the buffer. -/
theorem matchResponseLine_length (b e r : List Char)
    (h : matchResponseLine b = some (e, r)) : r.length < b.length := by
  simp only [matchResponseLine] at h
  split at h
  case isTrue hpre =>
    cases hm : termMatch ((b.drop 6).dropWhile isDotChar) with
    | none => rw [hm] at h; cases h
    | some r0 =>
        rw [hm] at h
        cases h
        have hlen6 : 6 ≤ b.length := matchResponseLine_pre_length b hpre
        have ht := termMatch_length _ _ hm
        have hsum := congrArg List.length
          (List.takeWhile_append_dropWhile (p := isDotChar) (l := b.drop 6))
        simp only [List.length_append] at hsum
        have hdl : (b.drop 6).length = b.length - 6 := List.length_drop 6 b
        omega
  case isFalse hpre => cases h

/-- One-step unfolding of the fuelled drain loop. -/
theorem drainAux_cons (fuel : Nat) (b : List Char) :
    drainAux (fuel + 1) b =
      match matchResponseLine b with
      | some (ev, r) => (ev :: (drainAux fuel r).1, (drainAux fuel r).2)
      | none => ([], b) := by
  simp [drainAux]

/-- Above the buffer length, extra fuel changes nothing. -/
theorem drainAux_succ_of_le (fuel : Nat) :
    ∀ (b : List Char), b.length ≤ fuel → drainAux (fuel + 1) b = drainAux fuel b := by
  induction fuel with
  | zero =>
      intro b hb
      have hz : b = [] := List.length_eq_zero.mp (Nat.le_zero.mp hb)
      subst hz
      rfl
  | succ fuel ih =>
      intro b hb
      cases hm : matchResponseLine b with
      | none => simp [drainAux, hm]
      | some er =>
          obtain ⟨ev, r⟩ := er
          have hr : r.length ≤ fuel := by
            have := matchResponseLine_length b ev r hm
            omega
          have hL : drainAux (fuel + 1 + 1) b =
              (ev :: (drainAux (fuel + 1) r).1, (drainAux (fuel + 1) r).2) := by
            conv_lhs => rw [drainAux_cons (fuel + 1) b]
            rw [hm]
          have hR : drainAux (fuel + 1) b =
              (ev :: (drainAux fuel r).1, (drainAux fuel r).2) := by
            conv_lhs => rw [drainAux_cons fuel b]
            rw [hm]
          rw [hL, hR, ih r hr]

theorem drainAux_of_le (fuel : Nat) (b : List Char) (hb : b.length ≤ fuel) :
    drainAux fuel b = drainBuffer b := by
  obtain ⟨d, rfl⟩ := Nat.exists_eq_add_of_le hb
  unfold drainBuffer
  induction d with
  | zero => rfl
  | succ d ih =>
      have : b.length + (d + 1) = (b.length + d) + 1 := rfl
      rw [this, drainAux_succ_of_le (b.length + d) b (by omega), ih (by omega)]

/-- The natural unfolding of the drain loop. -/
theorem drainBuffer_eq (b : List Char) :
    drainBuffer b =
      match matchResponseLine b with
      | some (ev, r) => (ev :: (drainBuffer r).1, (drainBuffer r).2)
      | none => ([], b) := by
  cases hm : matchResponseLine b with
  | none =>
      cases hl : b.length with
      | zero => unfold drainBuffer; rw [hl]; rfl
      | succ m => unfold drainBuffer; rw [hl]; simp [drainAux, hm]
  | some er =>
      obtain ⟨ev, r⟩ := er
      have hlt : r.length < b.length := matchResponseLine_length b ev r hm
      cases hl : b.length with
      | zero => omega
      | succ m =>
          unfold drainBuffer
          rw [hl]
          simp only [drainAux, hm]
          rw [drainAux_of_le m r (by omega)]
          rfl

/-- The buffer left by the drain loop holds no complete event. -/
theorem drainBuffer_res_none_aux (fuel : Nat) :
    ∀ (b : List Char), b.length ≤ fuel →
      matchResponseLine (drainBuffer b).2 = none := by
  induction fuel with
  | zero =>
      intro b hb
      have hz : b = [] := List.length_eq_zero.mp (Nat.le_zero.mp hb)
      subst hz
      rfl
  | succ fuel ih =>
      intro b hb
      rw [drainBuffer_eq]
      cases hm : matchResponseLine b with
      | none => exact hm
      | some er =>
          obtain ⟨ev, r⟩ := er
          have hlt := matchResponseLine_length b ev r hm
          exact ih r (by omega)

theorem drainBuffer_res_none (b : List Char) :
    matchResponseLine (drainBuffer b).2 = none :=
  drainBuffer_res_none_aux b.length b (Nat.le_refl _)

/-- Draining a concatenation first drains the prefix, then continues from
the leftover buffer — the heart of chunking invariance. -/
theorem drainBuffer_append_aux (fuel : Nat) :
    ∀ (b s : List Char), b.length ≤ fuel →
      drainBuffer (b ++ s) =
        ((drainBuffer b).1 ++ (drainBuffer ((drainBuffer b).2 ++ s)).1,
          (drainBuffer ((drainBuffer b).2 ++ s)).2) := by
  induction fuel with
  | zero =>
      intro b s hb
      have hz : b = [] := List.length_eq_zero.mp (Nat.le_zero.mp hb)
      subst hz
      simp [drainBuffer, drainAux]
  | succ fuel ih =>
      intro b s hb
      cases hm : matchResponseLine b with
      | none =>
          have hB : drainBuffer b = ([], b) := by rw [drainBuffer_eq, hm]
          rw [hB]
          simp
      | some er =>
          obtain ⟨ev, r⟩ := er
          have hlt := matchResponseLine_length b ev r hm
          have hB : drainBuffer b = (ev :: (drainBuffer r).1, (drainBuffer r).2) := by
            rw [drainBuffer_eq, hm]
          have hBS : drainBuffer (b ++ s) =
              (ev :: (drainBuffer (r ++ s)).1, (drainBuffer (r ++ s)).2) := by
            rw [drainBuffer_eq, matchResponseLine_append b s ev r hm]
          rw [hBS, ih r s (by omega), hB]
          simp

theorem drainBuffer_append (b s : List Char) :
    drainBuffer (b ++ s) =
      ((drainBuffer b).1 ++ (drainBuffer ((drainBuffer b).2 ++ s)).1,
        (drainBuffer ((drainBuffer b).2 ++ s)).2) :=
  drainBuffer_append_aux b.length b s (Nat.le_refl _)

/-- Feeding chunks one by one equals draining the whole concatenation,
provided the starting buffer holds no complete event. -/
theorem feedChunks_drain (cs : List (List Char)) :
    ∀ (b : List Char), matchResponseLine b = none →
      feedChunks b cs = drainBuffer (b ++ cs.flatten) := by
  induction cs with
  | nil =>
      intro b hb
      show ([], b) = drainBuffer (b ++ [])
      rw [List.append_nil, drainBuffer_eq, hb]
  | cons c cs ih =>
      intro b hb
      show (let p := parseStream b c
        let rest := feedChunks p.2 cs
        (p.1 ++ rest.1, rest.2)) = drainBuffer (b ++ (c :: cs).flatten)
      have hres : matchResponseLine (parseStream b c).2 = none := drainBuffer_res_none _
      have hflat : b ++ (c :: cs).flatten = (b ++ c) ++ cs.flatten := by
        simp [List.flatten_cons, List.append_assoc]
      rw [hflat, drainBuffer_append (b ++ c) cs.flatten]
      simp only [parseStream] at hres ⊢
      rw [ih (drainBuffer (b ++ c)).2 hres]

/-- C1: the Stage A framer is invariant under physical chunking — any two
ways of splitting the same upstream byte sequence feed out the identical
sequence of logical events (and the identical final buffer) — and an event
is only ever emitted once its complete `data: `-line-plus-terminator pattern
is present in the buffer: every match decomposes the buffer as the `data: `
prefix, the emitted line (free of line terminators), one of the three
blank-line terminators, and the remainder. -/
theorem c1_framer_chunk_invariance :
    (∀ cs ds : List (List Char), cs.flatten = ds.flatten →
      feedChunks [] cs = feedChunks [] ds) ∧
    (∀ b e r : List Char, matchResponseLine b = some (e, r) →
      ∃ t ∈ [['\n', '\n'], ['\r', '\r'], ['\r', '\n', '\r', '\n']],
        b = dataPrefix ++ e ++ t ++ r ∧ ∀ c ∈ e, isDotChar c = true) := by
  constructor
  · intro cs ds hflat
    have h1 := feedChunks_drain cs [] (by decide)
    have h2 := feedChunks_drain ds [] (by decide)
    rw [h1, h2, List.nil_append, List.nil_append, hflat]
  · intro b e r h
    simp only [matchResponseLine] at h
    split at h
    case isTrue hpre =>
      cases hm : termMatch ((b.drop 6).dropWhile isDotChar) with
      | none => rw [hm] at h; cases h
      | some r0 =>
          rw [hm] at h
          cases h
          obtain ⟨t, ht, hdec⟩ := termMatch_decomp _ _ hm
          refine ⟨t, ht, ?_, fun c hc => List.mem_takeWhile_imp hc⟩
          have hsplit := List.takeWhile_append_dropWhile (p := isDotChar) (l := b.drop 6)
          rw [List.append_assoc (dataPrefix ++ (b.drop 6).takeWhile isDotChar) t _,
            ← hdec, List.append_assoc dataPrefix, hsplit, ← hpre, List.take_append_drop]
    case isFalse hpre => cases h

theorem c1_framer_chunk_invariance_witness :
    (["data: a\n\ndata: b\n\n".data].flatten =
      ["data: a\n".data, "\ndata: b\n".data, "\n".data].flatten) ∧
    feedChunks [] ["data: a\n\ndata: b\n\n".data] =
      feedChunks [] ["data: a\n".data, "\ndata: b\n".data, "\n".data] :=
  ⟨by decide,
    c1_framer_chunk_invariance.1 ["data: a\n\ndata: b\n\n".data]
      ["data: a\n".data, "\ndata: b\n".data, "\n".data] (by decide)⟩

/-- Delta histories concatenate over output concatenation. -/
theorem deltasFor_append (i : Nat) (outs1 outs2 : List StreamOut) :
    deltasFor i (outs1 ++ outs2) = deltasFor i outs1 ++ deltasFor i outs2 :=
  List.flatMap_append outs1 outs2 _

/-- A history that has started stays well-formed under roleless additions. -/
theorem RoleOnce_append (ds1 ds2 : List OADelta) (h1 : RoleOnce ds1)
    (hne : ds1 ≠ []) (h2 : ∀ d ∈ ds2, d.role = none) :
    RoleOnce (ds1 ++ ds2) := by
  match ds1, hne with
  | d :: rest, _ =>
      obtain ⟨ha, hb, hc⟩ := h1
      refine ⟨ha, hb, ?_⟩
      intro d2 hd2
      simp only [List.append_eq] at hd2
      rw [List.mem_append] at hd2
      rcases hd2 with h | h
      · exact hc d2 h
      · exact h2 d2 h

/-- `this.last[i] = obj` then `this.last[i]` reads it back. -/
theorem setLast_lastAt_self (l : List (Option OAChunk)) (i : Nat) (v : OAChunk) :
    lastAt (setLast l i v) i = some v := by
  unfold setLast lastAt
  split
  · rename_i hlt
    rw [List.get?_eq_getElem?, List.getElem?_set_self hlt]
    rfl
  · rename_i hge
    push_neg at hge
    rw [List.get?_eq_getElem?, List.append_assoc,
      List.getElem?_append_right hge]
    have hlen : (List.replicate (i - l.length) (none : Option OAChunk)).length =
        i - l.length := List.length_replicate _ _
    rw [List.getElem?_append_right (by omega)]
    have hz : i - l.length - (List.replicate (i - l.length) (none : Option OAChunk)).length
        = 0 := by omega
    rw [hz]
    rfl

/-- Writing slot `i` leaves every other slot unchanged. -/
theorem setLast_lastAt_ne (l : List (Option OAChunk)) (i : Nat) (v : OAChunk) (j : Nat)
    (hne : j ≠ i) : lastAt (setLast l i v) j = lastAt l j := by
  unfold setLast lastAt
  split
  · rw [List.get?_eq_getElem?, List.get?_eq_getElem?,
      List.getElem?_set_ne (fun he => hne he.symm)]
  · rename_i hge
    push_neg at hge
    rw [List.get?_eq_getElem?, List.get?_eq_getElem?]
    by_cases hj : j < l.length
    · rw [List.append_assoc, List.getElem?_append_left hj]
    · push_neg at hj
      rw [List.getElem?_eq_none hj, List.append_assoc,
        List.getElem?_append_right hj]
      by_cases hj2 : j - l.length <
          (List.replicate (i - l.length) (none : Option OAChunk)).length
      · rw [List.getElem?_append_left hj2, List.getElem?_replicate,
          if_pos (by simpa using hj2)]
        rfl
      · push_neg at hj2
        rw [List.getElem?_append_right hj2]
        rw [List.length_replicate] at hj2
        have hidx : ([some v] : List (Option OAChunk)).length ≤
            j - l.length - (List.replicate (i - l.length)
              (none : Option OAChunk)).length := by
          simp only [List.length_replicate, List.length_cons, List.length_nil]
          omega
        rw [List.getElem?_eq_none hidx]


theorem deltasFor_nil (i : Nat) : deltasFor i [] = [] := rfl

theorem deltasFor_cons_chunk (i : Nat) (ck : OAChunk) (rest : List StreamOut) :
    deltasFor i (StreamOut.chunk ck :: rest) =
      ck.choices.filterMap (fun ch => if ch.index = i then ch.payload else none) ++
        deltasFor i rest := by
  simp [deltasFor]

theorem LastInv_step (st : BState) (l : UpLine) (outs : List StreamOut)
    (hone : oneCandidate l = true) (hInv : LastInv st outs) :
    LastInv (toOpenAiStream st l).1 (outs ++ (toOpenAiStream st l).2) := by
  cases l with
  | raw s =>
      have hsame : (toOpenAiStream st (.raw s)).1 = st := by
        simp only [toOpenAiStream]
        split <;> rfl
      have hds : ∀ i, deltasFor i (toOpenAiStream st (.raw s)).2 = [] := by
        intro i
        simp only [toOpenAiStream]
        split <;> rfl
      intro i
      rw [hsame, deltasFor_append, hds i, List.append_nil]
      exact hInv i
  | ev data =>
      obtain ⟨c, hc⟩ := List.length_eq_one.mp (by simpa [oneCandidate] using hone)
      have hmid : ((transformCandidates st.gen c).payload.getD emptyDelta).content.isSome
          = true := by
        simp [transformCandidates, buildMessage]
      intro i
      simp only [toOpenAiStream, hc, List.map_cons, List.map_nil, hmid, if_true]
      by_cases hi : i = (transformCandidates st.gen c).index
      · rw [← hi]
        by_cases hF : lastAt st.last i = none
        · rw [if_pos hF]
          constructor
          · intro hnone
            rw [setLast_lastAt_self] at hnone
            cases hnone
          · intro c0 hc0
            rw [setLast_lastAt_self] at hc0
            cases hc0.symm
            have hprior : deltasFor i outs = [] := (hInv i).1 hF
            rw [deltasFor_append, hprior, List.nil_append, List.singleton_append,
              deltasFor_cons_chunk, deltasFor_cons_chunk, deltasFor_nil]
            refine ⟨by simp, by simp [RoleOnce], ?_⟩
            intro ch hch
            simp only [List.mem_singleton] at hch
            subst hch
            exact ⟨rfl, emptyDelta, rfl, rfl⟩
        · rw [if_neg hF]
          constructor
          · intro hnone
            rw [setLast_lastAt_self] at hnone
            cases hnone
          · intro c0 hc0
            rw [setLast_lastAt_self] at hc0
            cases hc0.symm
            obtain ⟨c1, hc1⟩ := Option.ne_none_iff_exists'.mp hF
            obtain ⟨hne1, hro1, _⟩ := (hInv i).2 c1 hc1
            rw [deltasFor_append, List.nil_append, deltasFor_cons_chunk, deltasFor_nil]
            refine ⟨by simp [hne1], ?_, ?_⟩
            · refine RoleOnce_append _ _ hro1 hne1 ?_
              intro d hd
              simp at hd
              rw [hd]
            · intro ch hch
              simp only [List.mem_singleton] at hch
              subst hch
              exact ⟨rfl, emptyDelta, rfl, rfl⟩
      · have hi' : ¬((transformCandidates st.gen c).index = i) := fun h => hi h.symm
        have hz2 : deltasFor i ((if lastAt st.last (transformCandidates st.gen c).index
            = none then [StreamOut.chunk
              ⟨st.id, [⟨(transformCandidates st.gen c).index,
                some ⟨some "assistant", some (some ""), none⟩, none⟩],
                data.modelVersion.getD st.model,
                if (data.usageMetadata.isSome && st.streamIncludeUsage) = true
                  then some none else none⟩] else []) ++
            [StreamOut.chunk
              ⟨st.id, [⟨(transformCandidates st.gen c).index,
                some ⟨none,
                  ((transformCandidates st.gen c).payload.getD emptyDelta).content,
                  ((transformCandidates st.gen c).payload.getD emptyDelta).tool_calls⟩,
                none⟩],
                data.modelVersion.getD st.model,
                if (data.usageMetadata.isSome && st.streamIncludeUsage) = true
                  then some none else none⟩]) = [] := by
          rw [deltasFor_append, deltasFor_cons_chunk, deltasFor_nil]
          split
          · rw [deltasFor_cons_chunk, deltasFor_nil]
            simp [hi']
          · rw [deltasFor_nil]
            simp [hi']
        constructor
        · intro hnone
          rw [setLast_lastAt_ne _ _ _ _ hi] at hnone
          rw [deltasFor_append, (hInv i).1 hnone, List.nil_append, hz2]
        · intro c0 hc0
          rw [setLast_lastAt_ne _ _ _ _ hi] at hc0
          obtain ⟨hne2, hro, hch⟩ := (hInv i).2 c0 hc0
          rw [deltasFor_append, hz2, List.append_nil]
          exact ⟨hne2, hro, hch⟩

/-- The invariant survives a whole sequence of lines. -/
theorem processLines_inv (lines : List UpLine) :
    ∀ (st : BState) (outs : List StreamOut),
      (∀ l ∈ lines, oneCandidate l = true) → LastInv st outs →
      LastInv (processLines st lines).1 (outs ++ (processLines st lines).2) := by
  induction lines with
  | nil =>
      intro st outs _ hInv
      simpa [processLines] using hInv
  | cons l ls ih =>
      intro st outs hone hInv
      have hstep := LastInv_step st l outs (hone l (List.mem_cons_self l ls)) hInv
      have hrest := ih (toOpenAiStream st l).1 (outs ++ (toOpenAiStream st l).2)
        (fun l2 hl2 => hone l2 (List.mem_cons_of_mem _ hl2)) hstep
      simp only [processLines]
      rw [← List.append_assoc]
      exact hrest

/-- Every chunk the flush emits is one of the cached terminal events. -/
theorem flushLast_chunk_mem (l : List (Option OAChunk)) :
    ∀ c : OAChunk, StreamOut.chunk c ∈ flushLast l → ∃ p, lastAt l p = some c := by
  induction l with
  | nil =>
      intro c hcin
      simp [flushLast] at hcin
  | cons o rest ih =>
      intro c hcin
      cases o with
      | some c0 =>
          simp only [flushLast] at hcin
          rcases List.mem_cons.mp hcin with h | h
          · cases h
            exact ⟨0, rfl⟩
          · obtain ⟨p, hp⟩ := ih c h
            exact ⟨p + 1, by simpa [lastAt] using hp⟩
      | none =>
          simp only [flushLast] at hcin
          simp at hcin

/-- Under the invariant, the flush contributes only roleless deltas, and
none at all for an index that never emitted. -/
theorem flush_deltas (st : BState) (outs : List StreamOut) (hInv : LastInv st outs)
    (i : Nat) :
    (deltasFor i outs = [] → deltasFor i (toOpenAiStreamFlush st) = []) ∧
    (∀ d ∈ deltasFor i (toOpenAiStreamFlush st), d.role = none) := by
  have hmem : ∀ d ∈ deltasFor i (toOpenAiStreamFlush st),
      ∃ c, lastAt st.last i = some c ∧ ∃ dd, d = dd ∧ d.role = none := by
    intro d hd
    simp only [toOpenAiStreamFlush] at hd
    split at hd
    case isTrue =>
      simp only [deltasFor, List.mem_flatMap] at hd
      obtain ⟨out, hout, hdo⟩ := hd
      match out, hdo with
      | StreamOut.chunk ck, hdo =>
          obtain ⟨p, hp⟩ := flushLast_chunk_mem st.last ck hout
          obtain ⟨-, -, hch⟩ := (hInv p).2 ck hp
          rw [List.mem_filterMap] at hdo
          obtain ⟨ch, hchm, hite⟩ := hdo
          obtain ⟨hidx, dd, hpay, hrole⟩ := hch ch hchm
          by_cases hpi : ch.index = i
          · rw [if_pos hpi] at hite
            rw [hpay] at hite
            cases hite
            refine ⟨ck, ?_, d, rfl, hrole⟩
            rw [← hidx, hpi] at hp
            exact hp
          · rw [if_neg hpi] at hite
            cases hite
    case isFalse =>
      simp [deltasFor] at hd
  constructor
  · intro hnil
    by_contra hne
    obtain ⟨d, hd⟩ := List.exists_mem_of_ne_nil _ hne
    obtain ⟨c, hc, -⟩ := hmem d hd
    obtain ⟨hne2, -, -⟩ := (hInv i).2 c hc
    exact hne2 hnil
  · intro d hd
    obtain ⟨-, -, dd, hdd, hrole⟩ := hmem d hd
    exact hrole

/-- C6: for every choice index of the output stream (upstream events each
carrying one candidate, as the source asserts), the first delta emitted for
that index carries `role: "assistant"` with empty content, and no later
delta for that index — including the terminal flush — carries the role key. -/
theorem c6_role_announced_once (id model gen : String) (inc : Bool)
    (lines : List UpLine) (h1 : ∀ l ∈ lines, oneCandidate l = true) (i : Nat) :
    RoleOnce (deltasFor i (runPipeline (initBState id model gen inc) lines)) := by
  have hInit : LastInv (initBState id model gen inc) [] := by
    intro j
    constructor
    · intro _
      rfl
    · intro c hc
      simp [lastAt, initBState] at hc
  have hrun := processLines_inv lines (initBState id model gen inc) [] h1 hInit
  simp only [runPipeline]
  have hrun' : LastInv (processLines (initBState id model gen inc) lines).1
      (processLines (initBState id model gen inc) lines).2 := by
    simpa using hrun
  have hf := flush_deltas (processLines (initBState id model gen inc) lines).1
    (processLines (initBState id model gen inc) lines).2 hrun' i
  rw [deltasFor_append]
  by_cases hnil : deltasFor i (processLines (initBState id model gen inc) lines).2 = []
  · rw [hnil, List.nil_append, hf.1 hnil]
    trivial
  · have hlast : lastAt (processLines (initBState id model gen inc) lines).1.last i ≠
        none := by
      intro hz
      exact hnil ((hrun' i).1 hz)
    obtain ⟨c0, hc0⟩ := Option.ne_none_iff_exists'.mp hlast
    obtain ⟨hne0, hro0, -⟩ := (hrun' i).2 c0 hc0
    exact RoleOnce_append _ _ hro0 hne0 hf.2

theorem c6_role_announced_once_witness :
    (∀ l ∈ ([.ev ⟨[⟨none, [.text "hi"], none⟩], none, none, none⟩,
        .ev ⟨[⟨none, [.text "!"], some "STOP"⟩], none, none, none⟩] : List UpLine),
      oneCandidate l = true) ∧
    RoleOnce (deltasFor 0 (runPipeline (initBState "id0" "m0" "g0" false)
      [.ev ⟨[⟨none, [.text "hi"], none⟩], none, none, none⟩,
        .ev ⟨[⟨none, [.text "!"], some "STOP"⟩], none, none, none⟩])) :=
  ⟨by decide,
    c6_role_announced_once "id0" "m0" "g0" false
      [.ev ⟨[⟨none, [.text "hi"], none⟩], none, none, none⟩,
        .ev ⟨[⟨none, [.text "!"], some "STOP"⟩], none, none, none⟩] (by decide) 0⟩
